import Mathlib

/- Verification development for the DOM viewer core: order book replication
   (dom_viewer/datafeed/orderbook.py), trade flow aggregation
   (dom_viewer/engine/flows.py) and the snapshot output channel of
   dom_viewer/datafeed/binance_client.py.

   Modelling conventions.  Python float prices and quantities are modelled
   exactly over ℚ.  A Python dict keyed by price is modelled as an
   association list over ℚ whose keys are unique: assignment replaces the
   entry of an existing key in place and appends a fresh key at the end
   (dict insertion order), and pop removes the key.  Python sorted(...) is
   modelled by an insertion sort; every key sequence sorted in this
   development has pairwise distinct keys, so any comparison sort produces
   the same list.  Message fields arrive as strings and are converted with
   float(...) by the code; the model works with the parsed numeric values. -/

/-- Python m.get(k): value of the first entry with key k. -/
def alookup {β : Type} : List (ℚ × β) → ℚ → Option β
  | [], _ => none
  | (k, v) :: t, q => if k = q then some v else alookup t q

/-- Python m.get(k, d). -/
def alookupD {β : Type} (m : List (ℚ × β)) (q : ℚ) (d : β) : β :=
  (alookup m q).getD d

/-- Python dict assignment m[k] = v: replace in place, else append. -/
def ainsert {β : Type} : List (ℚ × β) → ℚ → β → List (ℚ × β)
  | [], q, v => [(q, v)]
  | (k, w) :: t, q, v => if k = q then (q, v) :: t else (k, w) :: ainsert t q v

/-- Python m.pop(k, None) on a dict (unique keys): drop the key. -/
def aerase {β : Type} (m : List (ℚ × β)) (q : ℚ) : List (ℚ × β) :=
  m.filter (fun kv => decide (kv.1 ≠ q))

/-- Keys of the association list are pairwise distinct (true of every state
    built by the dict operations above). -/
def NodupKeys {β : Type} (m : List (ℚ × β)) : Prop :=
  (m.map Prod.fst).Nodup

/-- Insert into a list already ordered by le. -/
def insSortInsert {α : Type} (le : α → α → Bool) (x : α) : List α → List α
  | [] => [x]
  | y :: t => if le x y then x :: y :: t else y :: insSortInsert le x t

/-- Insertion sort; models Python sorted(...) with the given order. -/
def insSort {α : Type} (le : α → α → Bool) : List α → List α
  | [] => []
  | x :: t => insSortInsert le x (insSort le t)

/-- Shared bin-center formula of OrderBook.get_binned_ladder and
    FlowEngine._price_to_bin: (price // bin_size) * bin_size + bin_size / 2,
    where // is float floor division. -/
def priceToBin (bin_size price : ℚ) : ℚ :=
  (⌊price / bin_size⌋ : ℚ) * bin_size + bin_size / 2

/-- types.BinnedLevel. -/
structure BinnedLevel where
  bin_price : ℚ
  bid_qty : ℚ
  ask_qty : ℚ
deriving DecidableEq

/-- types.FlowLevel. -/
structure FlowLevel where
  price : ℚ
  bid_resting_qty : ℚ
  ask_resting_qty : ℚ
  bid_traded_qty : ℚ
  ask_traded_qty : ℚ
  delta_qty : ℚ
deriving DecidableEq

/-- types.Trade. -/
structure Trade where
  price : ℚ
  qty : ℚ
  is_buyer_maker : Bool
  timestamp_ms : ℤ
deriving DecidableEq

/-- OrderBook state: the two price-to-quantity dicts and the sequencing id.
    The cached sorted arrays and the dirty flag of the Python class are a
    lazily rebuilt view of the dict keys; every public query re-sorts first,
    so queries are modelled directly on the dicts. -/
structure OrderBook where
  symbol : String
  bids : List (ℚ × ℚ)
  asks : List (ℚ × ℚ)
  last_update_id : ℤ
deriving DecidableEq

/-- OrderBook.__init__. -/
def OrderBook.init (symbol : String) : OrderBook :=
  ⟨symbol, [], [], 0⟩

/-- REST snapshot payload (field lastUpdateId, parsed bids and asks). -/
structure SnapshotData where
  lastUpdateId : ℤ
  bids : List (ℚ × ℚ)
  asks : List (ℚ × ℚ)
deriving DecidableEq

/-- Depth diff message: fields U (firstId), u (lastId), b, a. -/
structure DepthUpdate where
  firstId : ℤ
  lastId : ℤ
  bidChanges : List (ℚ × ℚ)
  askChanges : List (ℚ × ℚ)
deriving DecidableEq

/-- One snapshot row: insert only when the parsed quantity is positive. -/
def snapInsert (m : List (ℚ × ℚ)) (pq : ℚ × ℚ) : List (ℚ × ℚ) :=
  if 0 < pq.2 then ainsert m pq.1 pq.2 else m

/-- OrderBook.load_snapshot: record the snapshot id, clear both sides and
    insert every level with qty > 0. -/
def load_snapshot (ob : OrderBook) (d : SnapshotData) : OrderBook :=
  { ob with
    last_update_id := d.lastUpdateId,
    bids := d.bids.foldl snapInsert [],
    asks := d.asks.foldl snapInsert [] }

/-- One (price, qty) entry of a diff: qty == 0 removes the price key, any
    other qty upserts it. -/
def applyChange (m : List (ℚ × ℚ)) (c : ℚ × ℚ) : List (ℚ × ℚ) :=
  if c.2 = 0 then aerase m c.1 else ainsert m c.1 c.2

/-- OrderBook.apply_update: the three-way sequence check, evaluated before
    any mutation, then the per-level changes and the new last_update_id. -/
def apply_update (ob : OrderBook) (u : DepthUpdate) : Bool × OrderBook :=
  if ob.last_update_id + 1 < u.firstId then (false, ob)
  else if u.lastId ≤ ob.last_update_id then (true, ob)
  else
    (true,
      { ob with
        bids := u.bidChanges.foldl applyChange ob.bids,
        asks := u.askChanges.foldl applyChange ob.asks,
        last_update_id := u.lastId })

/-- Fold apply_update over a list of diffs, keeping only the state. -/
def applyUpdates (ob : OrderBook) (us : List DepthUpdate) : OrderBook :=
  us.foldl (fun b u => (apply_update b u).2) ob

/-- OrderBook.best_bid: head of the bid price keys sorted descending,
    0.0 when there are no bids. -/
def best_bid (ob : OrderBook) : ℚ :=
  (insSort (fun a b => decide ((b : ℚ) ≤ a)) (ob.bids.map Prod.fst)).headD 0

/-- OrderBook.best_ask: head of the ask price keys sorted ascending,
    0.0 when there are no asks. -/
def best_ask (ob : OrderBook) : ℚ :=
  (insSort (fun a b => decide ((a : ℚ) ≤ b)) (ob.asks.map Prod.fst)).headD 0

/-- OrderBook.mid_price: the average when both best prices are positive,
    else the Python expression bb or ba (bb when nonzero, else ba). -/
def mid_price (ob : OrderBook) : ℚ :=
  if 0 < best_bid ob ∧ 0 < best_ask ob then (best_bid ob + best_ask ob) / 2
  else if best_bid ob ≠ 0 then best_bid ob else best_ask ob

/-- Key of the j-th pre-allocated bin of get_binned_ladder:
    center + i * bin_size with i = j - levels running from -levels to
    levels as j runs over range(2 * levels + 1). -/
def allocKey (center bin_size : ℚ) (levels j : ℕ) : ℚ :=
  center + (((j : ℤ) - (levels : ℤ) : ℤ) : ℚ) * bin_size

/-- Pre-allocation of get_binned_ladder: for i in range(-levels, levels+1)
    set bins[center + i * bin_size] = [0.0, 0.0]. -/
def allocBins (center bin_size : ℚ) (levels : ℕ) : List (ℚ × ℚ × ℚ) :=
  (List.range (2 * levels + 1)).foldl
    (fun b j => ainsert b (allocKey center bin_size levels j) (0, 0)) []

/-- Add a quantity to the bid (isBid = true) or ask component of a bin
    value pair. -/
def addPair (isBid : Bool) (q : ℚ) (v : ℚ × ℚ) : ℚ × ℚ :=
  if isBid then (v.1 + q, v.2) else (v.1, v.2 + q)

/-- One aggregation step of get_binned_ladder: if the bin center of the
    price is an allocated key, add the quantity to the bid (isBid = true)
    or ask component of that bin. -/
def aggStep (isBid : Bool) (bin_size : ℚ) (b : List (ℚ × ℚ × ℚ)) (pq : ℚ × ℚ) :
    List (ℚ × ℚ × ℚ) :=
  match alookup b (priceToBin bin_size pq.1) with
  | none => b
  | some v =>
      ainsert b (priceToBin bin_size pq.1)
        (if isBid then (v.1 + pq.2, v.2) else (v.1, v.2 + pq.2))

/-- Aggregate a whole side (the for price, qty in items() loop). -/
def aggSide (isBid : Bool) (bin_size : ℚ) (b : List (ℚ × ℚ × ℚ)) (m : List (ℚ × ℚ)) :
    List (ℚ × ℚ × ℚ) :=
  m.foldl (aggStep isBid bin_size) b

/-- sorted(bins.items(), reverse=True): descending by key (dict keys are
    unique, so lexicographic order on the items is key order). -/
def sortKeysDesc (b : List (ℚ × ℚ × ℚ)) : List (ℚ × ℚ × ℚ) :=
  insSort (fun x y => decide (y.1 ≤ x.1)) b

/-- OrderBook.get_binned_ladder: empty when mid is 0, else pre-allocate
    2 * levels + 1 bins around the bin containing mid, aggregate both
    sides (prices whose bin is not allocated are skipped), and return the
    bins by descending price. -/
def get_binned_ladder (ob : OrderBook) (bin_size : ℚ) (levels : ℕ) : List BinnedLevel :=
  if mid_price ob = 0 then []
  else
    (sortKeysDesc
        (aggSide false bin_size
          (aggSide true bin_size
            (allocBins (priceToBin bin_size (mid_price ob)) bin_size levels)
            ob.bids)
          ob.asks)).map (fun kv => ⟨kv.1, kv.2.1, kv.2.2⟩)

/-- One entry of the FlowEngine rolling history deque:
    (timestamp_ms, bin_price, qty, is_bid). -/
structure FlowEntry where
  ts : ℤ
  bin : ℚ
  qty : ℚ
  is_bid : Bool
deriving DecidableEq

/-- FlowEngine state: configuration, history deque and the two volume
    dicts.  The wall-clock fields driving the amortized cleanup trigger
    are external to the data model (see process_trade). -/
structure FlowEngine where
  bin_size : ℚ
  window_sec : ℚ
  trades : List FlowEntry
  bid_volume : List (ℚ × ℚ)
  ask_volume : List (ℚ × ℚ)
deriving DecidableEq

/-- FlowEngine.__init__. -/
def FlowEngine.init (bin_size window_sec : ℚ) : FlowEngine :=
  ⟨bin_size, window_sec, [], [], []⟩

/-- Python int(q) for the cutoff computation: truncation toward zero. -/
def pyInt (q : ℚ) : ℤ :=
  q.num.tdiv q.den

/-- Volume accumulation: vol[bin] = vol.get(bin, 0.0) + qty. -/
def addVol (m : List (ℚ × ℚ)) (k q : ℚ) : List (ℚ × ℚ) :=
  ainsert m k (alookupD m k 0 + q)

/-- Body of FlowEngine.process_trade without the amortized cleanup call:
    derive the aggressor side from is_buyer_maker, add the quantity to the
    volume dict of that side, and append the history entry. -/
def processTradeCore (e : FlowEngine) (t : Trade) : FlowEngine :=
  { e with
    bid_volume :=
      if !t.is_buyer_maker then addVol e.bid_volume (priceToBin e.bin_size t.price) t.qty
      else e.bid_volume,
    ask_volume :=
      if !t.is_buyer_maker then e.ask_volume
      else addVol e.ask_volume (priceToBin e.bin_size t.price) t.qty,
    trades :=
      e.trades ++ [⟨t.timestamp_ms, priceToBin e.bin_size t.price, t.qty, !t.is_buyer_maker⟩] }

/-- One eviction of _cleanup_expired:
    vol[bin] = max(0.0, vol.get(bin, 0.0) - qty), then the key is popped
    when the stored value is exactly zero. -/
def subVol (m : List (ℚ × ℚ)) (k q : ℚ) : List (ℚ × ℚ) :=
  if max 0 (alookupD m k 0 - q) = 0 then aerase m k
  else ainsert m k (max 0 (alookupD m k 0 - q))

/-- The while loop of _cleanup_expired: pop history entries from the left
    while the head is older than the cutoff, subtracting them out. -/
def cleanupLoop (cutoff : ℤ) :
    List FlowEntry → List (ℚ × ℚ) → List (ℚ × ℚ) →
      List FlowEntry × List (ℚ × ℚ) × List (ℚ × ℚ)
  | [], bv, av => ([], bv, av)
  | en :: rest, bv, av =>
      if en.ts < cutoff then
        if en.is_bid then cleanupLoop cutoff rest (subVol bv en.bin en.qty) av
        else cleanupLoop cutoff rest bv (subVol av en.bin en.qty)
      else (en :: rest, bv, av)

/-- FlowEngine._cleanup_expired with cutoff now_ms - int(window_sec * 1000). -/
def cleanup_expired (e : FlowEngine) (now_ms : ℤ) : FlowEngine :=
  let r := cleanupLoop (now_ms - pyInt (e.window_sec * 1000)) e.trades e.bid_volume e.ask_volume
  { e with trades := r.1, bid_volume := r.2.1, ask_volume := r.2.2 }

/-- FlowEngine.process_trade.  runCleanup stands for the wall-clock test
    now - _last_cleanup_time > _cleanup_interval; when it fires the code
    calls _cleanup_expired(trade.timestamp_ms) after recording the trade. -/
def process_trade (e : FlowEngine) (t : Trade) (runCleanup : Bool) : FlowEngine :=
  if runCleanup then cleanup_expired (processTradeCore e t) t.timestamp_ms
  else processTradeCore e t

/-- Feed a list of trades (each with its cleanup-trigger flag). -/
def runTrades (e : FlowEngine) : List (Trade × Bool) → FlowEngine
  | [] => e
  | (t, c) :: rest => runTrades (process_trade e t c) rest

/-- FlowEngine.get_flow_at_bin: (bid_traded, ask_traded, delta). -/
def get_flow_at_bin (e : FlowEngine) (bin_price : ℚ) : ℚ × ℚ × ℚ :=
  (alookupD e.bid_volume bin_price 0, alookupD e.ask_volume bin_price 0,
    alookupD e.bid_volume bin_price 0 - alookupD e.ask_volume bin_price 0)

/-- FlowEngine.merge_with_book: read-only join of binned levels with the
    traded volume dicts (0 when the bin is absent). -/
def merge_with_book (e : FlowEngine) (ls : List BinnedLevel) : List FlowLevel :=
  ls.map (fun l =>
    ⟨l.bin_price, l.bid_qty, l.ask_qty,
      alookupD e.bid_volume l.bin_price 0, alookupD e.ask_volume l.bin_price 0,
      alookupD e.bid_volume l.bin_price 0 - alookupD e.ask_volume l.bin_price 0⟩)

/-- types.DOMSnapshot, the output artifact. -/
structure DOMSnapshot where
  symbol : String
  best_bid : ℚ
  best_ask : ℚ
  mid_price : ℚ
  spread_bps : ℚ
  levels : List FlowLevel
  timestamp_ms : ℤ
  updates_per_sec : ℚ
deriving DecidableEq

/-- queue.Queue(maxsize=5) capacity of BinanceClient.snapshot_queue. -/
def snapshotQueueCap : ℕ := 5

/-- The queue push of BinanceClient._maybe_push_snapshot: put_nowait, and
    when the queue is full first get_nowait the oldest element.  The queue
    is a list, oldest first; the operation is total, so the producer never
    blocks. -/
def pushSnapshot (q : List DOMSnapshot) (s : DOMSnapshot) : List DOMSnapshot :=
  if q.length < snapshotQueueCap then q ++ [s] else q.drop 1 ++ [s]

/-- Sum of the quantities of the map entries whose price falls in the bin
    with center c. -/
def sideBinSum (bin_size : ℚ) (m : List (ℚ × ℚ)) (c : ℚ) : ℚ :=
  ((m.filter (fun pq => decide (priceToBin bin_size pq.1 = c))).map Prod.snd).sum

/-- Every stored quantity is positive. -/
def BookPos (m : List (ℚ × ℚ)) : Prop :=
  ∀ pq ∈ m, 0 < pq.2

instance (m : List (ℚ × ℚ)) : Decidable (BookPos m) :=
  List.decidableBAll _ m

/-- Sum of the quantities of the retained history entries of one side and
    bin. -/
def binQtySum (ts : List FlowEntry) (side : Bool) (bin : ℚ) : ℚ :=
  ((ts.filter (fun en => en.is_bid == side && decide (en.bin = bin))).map FlowEntry.qty).sum

/-- Some retained history entry belongs to this side and bin. -/
def hasEntry (ts : List FlowEntry) (side : Bool) (bin : ℚ) : Prop :=
  ∃ en ∈ ts, en.is_bid = side ∧ en.bin = bin

instance (ts : List FlowEntry) (side : Bool) (bin : ℚ) : Decidable (hasEntry ts side bin) :=
  List.decidableBEx _ ts

/-- Consistency of one volume dict with the retained history: the value of
    every bin (0 when absent) is the sum of the retained entries of that
    side and bin, and a present key has at least one retained entry. -/
def volInv (side : Bool) (ts : List FlowEntry) (m : List (ℚ × ℚ)) : Prop :=
  ∀ bin, alookupD m bin 0 = binQtySum ts side bin ∧
    (alookup m bin ≠ none → hasEntry ts side bin)

/-- Every retained history entry has nonnegative quantity. -/
def qtysOK (ts : List FlowEntry) : Prop :=
  ∀ en ∈ ts, 0 ≤ en.qty

/-- Full FlowEngine data invariant: nonnegative retained quantities, both
    volume dicts consistent with the history, history in timestamp order. -/
def EngineInv (e : FlowEngine) : Prop :=
  qtysOK e.trades ∧ volInv true e.trades e.bid_volume ∧
    volInv false e.trades e.ask_volume ∧
    List.Pairwise (· ≤ ·) (e.trades.map FlowEntry.ts)

/- ## Association list lemmas -/

theorem alookup_ainsert {β : Type} (m : List (ℚ × β)) (k : ℚ) (v : β) (j : ℚ) :
    alookup (ainsert m k v) j = if k = j then some v else alookup m j := by
  induction m with
  | nil => simp [ainsert, alookup]
  | cons p t ih =>
    obtain ⟨k1, w⟩ := p
    by_cases h : k1 = k
    · subst h
      by_cases hj : k1 = j
      · simp [ainsert, alookup, hj]
      · have hj2 : ¬ j = k1 := fun hh => hj hh.symm
        simp [ainsert, alookup, hj]
    · by_cases hj : k1 = j
      · subst hj
        have hk2 : ¬ k = k1 := fun hh => h hh.symm
        simp [ainsert, alookup, h, hk2, ih]
      · simp [ainsert, alookup, h, hj, ih]

theorem alookup_aerase {β : Type} (m : List (ℚ × β)) (q j : ℚ) :
    alookup (aerase m q) j = if j = q then none else alookup m j := by
  induction m with
  | nil => simp [aerase, alookup]
  | cons p t ih =>
    obtain ⟨k1, w⟩ := p
    by_cases hq : k1 = q
    · subst hq
      by_cases hj : j = k1
      · subst hj
        simp [aerase, alookup] at ih ⊢
        simpa using ih
      · have hj2 : ¬ k1 = j := fun hh => hj hh.symm
        simp [aerase, alookup, hj, hj2] at ih ⊢
        simpa [hj] using ih
    · by_cases hj : k1 = j
      · have hnq : ¬ j = q := fun hh => hq (hj.trans hh)
        simp [aerase, alookup, hq, hj, hnq]
      · simp [aerase, alookup, hq, hj] at ih ⊢
        exact ih

theorem alookup_eq_none {β : Type} (m : List (ℚ × β)) (k : ℚ) :
    alookup m k = none ↔ ∀ pq ∈ m, pq.1 ≠ k := by
  induction m with
  | nil => simp [alookup]
  | cons p t ih =>
    obtain ⟨k1, w⟩ := p
    by_cases h : k1 = k <;> simp [alookup, h, ih]

theorem ainsert_append_of_none {β : Type} {m : List (ℚ × β)} {k : ℚ} (v : β)
    (h : alookup m k = none) : ainsert m k v = m ++ [(k, v)] := by
  induction m with
  | nil => simp [ainsert]
  | cons p t ih =>
    obtain ⟨k1, w⟩ := p
    by_cases hk : k1 = k
    · subst hk
      simp [alookup] at h
    · simp [alookup, hk] at h
      simp [ainsert, hk, ih h]

theorem map_update_id {β : Type} {m : List (ℚ × β)} {k : ℚ}
    (f : ℚ × β → ℚ × β) (h : ∀ kv ∈ m, kv.1 ≠ k) :
    m.map (fun kv => if kv.1 = k then f kv else kv) = m := by
  induction m with
  | nil => simp
  | cons p t ih =>
    have hp : p.1 ≠ k := h p (by simp)
    simp [hp, ih (fun kv hkv => h kv (by simp [hkv]))]

theorem ainsert_eq_map_val {β : Type} {m : List (ℚ × β)} {k : ℚ} {v : β}
    (g : β → β) (hnd : NodupKeys m) (h : alookup m k = some v) :
    ainsert m k (g v) = m.map (fun kv => if kv.1 = k then (kv.1, g kv.2) else kv) := by
  induction m with
  | nil => simp [alookup] at h
  | cons p t ih =>
    obtain ⟨k1, w⟩ := p
    have hnd1 : (k1 :: t.map Prod.fst).Nodup := by simpa [NodupKeys] using hnd
    by_cases hk : k1 = k
    · subst hk
      simp [alookup] at h
      subst h
      have hnin : ∀ kv ∈ t, kv.1 ≠ k1 := by
        intro kv hkv he
        exact (List.nodup_cons.mp hnd1).1 (he ▸ List.mem_map_of_mem Prod.fst hkv)
      simp [ainsert, map_update_id _ hnin]
    · simp [alookup, hk] at h
      have hnd2 : NodupKeys t := (List.nodup_cons.mp hnd1).2
      simp [ainsert, hk, ih hnd2 h]

theorem mem_ainsert {β : Type} {m : List (ℚ × β)} {k : ℚ} {v : β} {pq : ℚ × β}
    (h : pq ∈ ainsert m k v) : pq = (k, v) ∨ pq ∈ m := by
  induction m with
  | nil => simpa [ainsert] using h
  | cons p t ih =>
    obtain ⟨k1, w⟩ := p
    by_cases hk : k1 = k
    · subst hk
      simp [ainsert] at h
      rcases h with h | h
      · exact Or.inl (by simp [h])
      · exact Or.inr (by simp [h])
    · simp [ainsert, hk] at h
      rcases h with h | h
      · exact Or.inr (by simp [h])
      · rcases ih h with h2 | h2
        · exact Or.inl h2
        · exact Or.inr (by simp [h2])

theorem mem_aerase {β : Type} {m : List (ℚ × β)} {q : ℚ} {pq : ℚ × β}
    (h : pq ∈ aerase m q) : pq ∈ m :=
  (List.mem_filter.mp h).1

/- ## Insertion sort lemmas -/

theorem length_insSortInsert {α : Type} (le : α → α → Bool) (x : α) (l : List α) :
    (insSortInsert le x l).length = l.length + 1 := by
  induction l with
  | nil => rfl
  | cons y t ih =>
    by_cases h : le x y <;> simp [insSortInsert, h, ih]

theorem mem_insSortInsert {α : Type} (le : α → α → Bool) (x a : α) (l : List α) :
    a ∈ insSortInsert le x l ↔ a = x ∨ a ∈ l := by
  induction l with
  | nil => simp [insSortInsert]
  | cons y t ih =>
    by_cases h : le x y
    · simp [insSortInsert, h]
    · simp only [insSortInsert, h]
      simp [ih]
      tauto

theorem length_insSort {α : Type} (le : α → α → Bool) (l : List α) :
    (insSort le l).length = l.length := by
  induction l with
  | nil => rfl
  | cons y t ih => simp [insSort, length_insSortInsert, ih]

theorem mem_insSort {α : Type} (le : α → α → Bool) (a : α) (l : List α) :
    a ∈ insSort le l ↔ a ∈ l := by
  induction l with
  | nil => simp [insSort]
  | cons y t ih => simp [insSort, mem_insSortInsert, ih]

theorem insSortInsert_of_false {α : Type} {le : α → α → Bool} {x : α} {l : List α}
    (h : ∀ y ∈ l, le x y = false) : insSortInsert le x l = l ++ [x] := by
  induction l with
  | nil => rfl
  | cons y t ih =>
    have hy : le x y = false := h y (by simp)
    simp [insSortInsert, hy, ih (fun z hz => h z (by simp [hz]))]

theorem headD_mem {α : Type} {l : List α} (h : l ≠ []) (d : α) : l.headD d ∈ l := by
  cases l with
  | nil => exact absurd rfl h
  | cons a t => simp

/- ## Best bid / best ask -/

theorem best_bid_of_empty {ob : OrderBook} (h : ob.bids = []) : best_bid ob = 0 := by
  simp [best_bid, h, insSort]

theorem best_ask_of_empty {ob : OrderBook} (h : ob.asks = []) : best_ask ob = 0 := by
  simp [best_ask, h, insSort]

theorem best_bid_mem {ob : OrderBook} (h : ob.bids ≠ []) :
    best_bid ob ∈ ob.bids.map Prod.fst := by
  have hm : ob.bids.map Prod.fst ≠ [] := by simpa using h
  have hs : insSort (fun a b => decide ((b : ℚ) ≤ a)) (ob.bids.map Prod.fst) ≠ [] := by
    intro he
    have := length_insSort (fun a b => decide ((b : ℚ) ≤ a)) (ob.bids.map Prod.fst)
    rw [he] at this
    exact hm (List.eq_nil_of_length_eq_zero this.symm)
  have := headD_mem hs (0 : ℚ)
  exact (mem_insSort _ _ _).mp this

theorem best_ask_mem {ob : OrderBook} (h : ob.asks ≠ []) :
    best_ask ob ∈ ob.asks.map Prod.fst := by
  have hm : ob.asks.map Prod.fst ≠ [] := by simpa using h
  have hs : insSort (fun a b => decide ((a : ℚ) ≤ b)) (ob.asks.map Prod.fst) ≠ [] := by
    intro he
    have := length_insSort (fun a b => decide ((a : ℚ) ≤ b)) (ob.asks.map Prod.fst)
    rw [he] at this
    exact hm (List.eq_nil_of_length_eq_zero this.symm)
  have := headD_mem hs (0 : ℚ)
  exact (mem_insSort _ _ _).mp this

theorem best_bid_pos {ob : OrderBook} (h : ob.bids ≠ [])
    (hpos : ∀ pq ∈ ob.bids, 0 < pq.1) : 0 < best_bid ob := by
  obtain ⟨pq, hpq, he⟩ := List.mem_map.mp (best_bid_mem h)
  exact he ▸ hpos pq hpq

theorem best_ask_pos {ob : OrderBook} (h : ob.asks ≠ [])
    (hpos : ∀ pq ∈ ob.asks, 0 < pq.1) : 0 < best_ask ob := by
  obtain ⟨pq, hpq, he⟩ := List.mem_map.mp (best_ask_mem h)
  exact he ▸ hpos pq hpq

/- ## BookPos preservation -/

theorem BookPos_ainsert {m : List (ℚ × ℚ)} {k v : ℚ} (hm : BookPos m) (hv : 0 < v) :
    BookPos (ainsert m k v) := by
  intro pq hpq
  rcases mem_ainsert hpq with h | h
  · simp [h, hv]
  · exact hm pq h

theorem BookPos_aerase {m : List (ℚ × ℚ)} {k : ℚ} (hm : BookPos m) :
    BookPos (aerase m k) :=
  fun pq hpq => hm pq (mem_aerase hpq)

theorem BookPos_foldSnap (l : List (ℚ × ℚ)) :
    ∀ m : List (ℚ × ℚ), BookPos m → BookPos (l.foldl snapInsert m) := by
  induction l with
  | nil => intro m hm; exact hm
  | cons c t ih =>
    intro m hm
    rw [List.foldl_cons]
    apply ih
    unfold snapInsert
    by_cases h : 0 < c.2
    · simpa [h] using BookPos_ainsert hm h
    · simpa [h] using hm

theorem BookPos_applyChange {m : List (ℚ × ℚ)} {c : ℚ × ℚ} (hm : BookPos m) (hc : 0 ≤ c.2) :
    BookPos (applyChange m c) := by
  unfold applyChange
  by_cases h : c.2 = 0
  · simpa [h] using BookPos_aerase hm
  · simpa [h] using BookPos_ainsert hm (lt_of_le_of_ne hc (Ne.symm h))

theorem BookPos_foldChanges {cs : List (ℚ × ℚ)} (hcs : ∀ c ∈ cs, 0 ≤ c.2) :
    ∀ m : List (ℚ × ℚ), BookPos m → BookPos (cs.foldl applyChange m) := by
  induction cs with
  | nil => intro m hm; exact hm
  | cons c t ih =>
    intro m hm
    rw [List.foldl_cons]
    exact ih (fun x hx => hcs x (by simp [hx]))
      _ (BookPos_applyChange hm (hcs c (by simp)))

theorem BookPos_apply_update {ob : OrderBook} {u : DepthUpdate}
    (hb : BookPos ob.bids) (ha : BookPos ob.asks)
    (hu : (∀ c ∈ u.bidChanges, 0 ≤ c.2) ∧ (∀ c ∈ u.askChanges, 0 ≤ c.2)) :
    BookPos (apply_update ob u).2.bids ∧ BookPos (apply_update ob u).2.asks := by
  unfold apply_update
  by_cases h1 : ob.last_update_id + 1 < u.firstId
  · simpa [h1] using ⟨hb, ha⟩
  · by_cases h2 : u.lastId ≤ ob.last_update_id
    · simpa [h1, h2] using ⟨hb, ha⟩
    · simpa [h1, h2] using
        ⟨BookPos_foldChanges hu.1 _ hb, BookPos_foldChanges hu.2 _ ha⟩

theorem BookPos_applyUpdates {us : List DepthUpdate}
    (h : ∀ u ∈ us, (∀ c ∈ u.bidChanges, 0 ≤ c.2) ∧ (∀ c ∈ u.askChanges, 0 ≤ c.2)) :
    ∀ ob : OrderBook, BookPos ob.bids → BookPos ob.asks →
      BookPos (applyUpdates ob us).bids ∧ BookPos (applyUpdates ob us).asks := by
  induction us with
  | nil => intro ob hb ha; exact ⟨hb, ha⟩
  | cons u t ih =>
    intro ob hb ha
    have step := BookPos_apply_update hb ha (h u (by simp))
    have := ih (fun x hx => h x (by simp [hx])) (apply_update ob u).2 step.1 step.2
    simpa [applyUpdates, List.foldl_cons] using this

/- ## Claim theorems: sequencing, queue, empty book, mid price, positivity -/

/-- C1: for every book state and diff whose firstId is strictly greater
    than last_update_id + 1, apply_update returns false and leaves the
    whole state, in particular the bids map, the asks map and
    last_update_id, unchanged: the sequence check precedes every mutation. -/
theorem apply_update_gap_rejects (ob : OrderBook) (u : DepthUpdate)
    (h : ob.last_update_id + 1 < u.firstId) :
    apply_update ob u = (false, ob) := by
  simp [apply_update, h]

theorem apply_update_gap_rejects_witness :
    apply_update (load_snapshot (OrderBook.init "X") ⟨100, [(99, 5)], [(101, 3)]⟩)
        ⟨105, 106, [(99, 0)], []⟩
      = (false, load_snapshot (OrderBook.init "X") ⟨100, [(99, 5)], [(101, 3)]⟩) :=
  apply_update_gap_rejects _ _ (by decide)

/-- C2: a diff with lastId ≤ last_update_id (and firstId within the gap
    bound, so that the first branch does not fire) is reported as applied
    (true) with the state untouched; consequently applying any diff twice
    in direct succession yields the same state as applying it once. -/
theorem apply_update_stale_idempotent (ob : OrderBook) (u : DepthUpdate) :
    (u.lastId ≤ ob.last_update_id → ¬ ob.last_update_id + 1 < u.firstId →
      apply_update ob u = (true, ob)) ∧
    (apply_update (apply_update ob u).2 u).2 = (apply_update ob u).2 := by
  constructor
  · intro h1 h2
    simp [apply_update, h1, h2]
  · by_cases hgap : ob.last_update_id + 1 < u.firstId
    · simp [apply_update, hgap]
    · by_cases hstale : u.lastId ≤ ob.last_update_id
      · simp [apply_update, hgap, hstale]
      · by_cases hgap2 : u.lastId + 1 < u.firstId
        · simp [apply_update, hgap, hstale, hgap2]
        · simp [apply_update, hgap, hstale, hgap2]

theorem apply_update_stale_idempotent_witness :
    apply_update (⟨"X", [(99, 5)], [(101, 3)], 100⟩ : OrderBook) ⟨95, 90, [(99, 0)], []⟩
      = (true, (⟨"X", [(99, 5)], [(101, 3)], 100⟩ : OrderBook)) :=
  (apply_update_stale_idempotent _ _).1 (by decide) (by decide)

/-- C9: pushing an artifact through the bounded drop-oldest channel never
    exceeds the capacity (5), always leaves the new artifact as the newest
    queued element, and on a full channel drops exactly the oldest queued
    artifact first; the push operation is total, so the producer never
    blocks. -/
theorem snapshot_queue_drop_oldest (q : List DOMSnapshot) (s : DOMSnapshot)
    (h : q.length ≤ snapshotQueueCap) :
    (pushSnapshot q s).length ≤ snapshotQueueCap ∧
    (pushSnapshot q s).getLast? = some s ∧
    (q.length = snapshotQueueCap → pushSnapshot q s = q.drop 1 ++ [s]) := by
  by_cases hf : q.length < snapshotQueueCap
  · refine ⟨?_, ?_, ?_⟩
    · simp [pushSnapshot, hf]
      exact hf
    · simp [pushSnapshot, hf, List.getLast?_concat]
    · intro hfull
      exact absurd hfull (Nat.ne_of_lt hf)
  · have hfull : q.length = snapshotQueueCap := le_antisymm h (not_lt.mp hf)
    refine ⟨?_, ?_, ?_⟩
    · simp [pushSnapshot, hf, List.length_drop, hfull, snapshotQueueCap]
    · simp [pushSnapshot, hf, List.getLast?_concat]
    · intro _
      simp [pushSnapshot, hf]

theorem snapshot_queue_drop_oldest_witness :
    pushSnapshot [⟨"X", 0, 0, 0, 0, [], 0, 0⟩, ⟨"X", 0, 0, 0, 0, [], 1, 0⟩,
        ⟨"X", 0, 0, 0, 0, [], 2, 0⟩, ⟨"X", 0, 0, 0, 0, [], 3, 0⟩,
        ⟨"X", 0, 0, 0, 0, [], 4, 0⟩] ⟨"X", 0, 0, 0, 0, [], 5, 0⟩
      = [⟨"X", 0, 0, 0, 0, [], 0, 0⟩, ⟨"X", 0, 0, 0, 0, [], 1, 0⟩,
          ⟨"X", 0, 0, 0, 0, [], 2, 0⟩, ⟨"X", 0, 0, 0, 0, [], 3, 0⟩,
          ⟨"X", 0, 0, 0, 0, [], 4, 0⟩].drop 1 ++ [⟨"X", 0, 0, 0, 0, [], 5, 0⟩] :=
  (snapshot_queue_drop_oldest _ _ (by decide)).2.2 (by decide)

/-- C10: with an empty bids (resp. asks) map, best_bid (resp. best_ask)
    returns the sentinel 0; with both sides empty, mid_price is 0 and
    get_binned_ladder returns the empty list for every bin size and depth,
    so an artifact built before any snapshot is loaded carries zero best
    prices and no levels. -/
theorem empty_book_defaults (ob : OrderBook) :
    (ob.bids = [] → best_bid ob = 0) ∧
    (ob.asks = [] → best_ask ob = 0) ∧
    (ob.bids = [] → ob.asks = [] → mid_price ob = 0 ∧
      ∀ bin_size levels, get_binned_ladder ob bin_size levels = []) := by
  refine ⟨best_bid_of_empty, best_ask_of_empty, ?_⟩
  intro hb ha
  have h1 : best_bid ob = 0 := best_bid_of_empty hb
  have h2 : best_ask ob = 0 := best_ask_of_empty ha
  have hm : mid_price ob = 0 := by simp [mid_price, h1, h2]
  exact ⟨hm, fun bs l => by simp [get_binned_ladder, hm]⟩

theorem empty_book_defaults_witness :
    best_bid (OrderBook.init "X") = 0 ∧ best_ask (OrderBook.init "X") = 0 ∧
      mid_price (OrderBook.init "X") = 0 ∧ get_binned_ladder (OrderBook.init "X") 1 25 = [] :=
  ⟨(empty_book_defaults _).1 rfl, (empty_book_defaults _).2.1 rfl,
    ((empty_book_defaults _).2.2 rfl rfl).1, ((empty_book_defaults _).2.2 rfl rfl).2 1 25⟩

unseal Rat.mul Rat.add Rat.inv Rat.sub Rat.ofScientific in
/-- C8 counterexample: a snapshot with a resting level at price 0 yields a
    state whose sides are both non-empty, yet mid_price returns the best
    ask (101) and not the average of best bid and best ask (101 / 2), so
    the claim as stated (average whenever both sides are non-empty) fails:
    the code tests positivity of the best prices, not non-emptiness. -/
theorem mid_price_counterexample :
    (load_snapshot (OrderBook.init "X") ⟨1000, [(0, 5)], [(101, 3)]⟩).bids ≠ [] ∧
    (load_snapshot (OrderBook.init "X") ⟨1000, [(0, 5)], [(101, 3)]⟩).asks ≠ [] ∧
    mid_price (load_snapshot (OrderBook.init "X") ⟨1000, [(0, 5)], [(101, 3)]⟩) = 101 ∧
    (best_bid (load_snapshot (OrderBook.init "X") ⟨1000, [(0, 5)], [(101, 3)]⟩) +
        best_ask (load_snapshot (OrderBook.init "X") ⟨1000, [(0, 5)], [(101, 3)]⟩)) / 2
      = 101 / 2 ∧
    (101 : ℚ) ≠ 101 / 2 := by
  decide

/-- C8 (amended): on every book state whose stored prices are all positive,
    mid_price returns the average of best bid and best ask when both sides
    are non-empty, the best price of the single non-empty side when exactly
    one side is non-empty, and 0 when both sides are empty. -/
theorem mid_price_cases (ob : OrderBook)
    (hb : ∀ pq ∈ ob.bids, 0 < pq.1) (ha : ∀ pq ∈ ob.asks, 0 < pq.1) :
    (ob.bids ≠ [] → ob.asks ≠ [] → mid_price ob = (best_bid ob + best_ask ob) / 2) ∧
    (ob.bids ≠ [] → ob.asks = [] → mid_price ob = best_bid ob) ∧
    (ob.bids = [] → ob.asks ≠ [] → mid_price ob = best_ask ob) ∧
    (ob.bids = [] → ob.asks = [] → mid_price ob = 0) := by
  refine ⟨?_, ?_, ?_, ?_⟩
  · intro h1 h2
    have hbb := best_bid_pos h1 hb
    have hba := best_ask_pos h2 ha
    simp [mid_price, hbb, hba]
  · intro h1 h2
    have hbb := best_bid_pos h1 hb
    have hba := best_ask_of_empty h2
    have hne : ¬ (0 < best_bid ob ∧ 0 < best_ask ob) := by simp [hba]
    simp [mid_price, hne, ne_of_gt hbb]
  · intro h1 h2
    have hbb := best_bid_of_empty h1
    simp [mid_price, hbb]
  · intro h1 h2
    simp [mid_price, best_bid_of_empty h1, best_ask_of_empty h2]

unseal Rat.mul Rat.add Rat.inv Rat.sub Rat.ofScientific in
theorem mid_price_cases_witness :
    mid_price (⟨"X", [(99, 5)], [(101, 3)], 1000⟩ : OrderBook)
      = (best_bid (⟨"X", [(99, 5)], [(101, 3)], 1000⟩ : OrderBook) +
          best_ask (⟨"X", [(99, 5)], [(101, 3)], 1000⟩ : OrderBook)) / 2 :=
  (mid_price_cases _ (by decide) (by decide)).1 (by decide) (by decide)

/-- C5 counterexample: a diff carrying a negative quantity is upserted as
    is by apply_update (the code only special-cases qty == 0), so a
    reachable state stores quantity -1 ≤ 0 at price 100. -/
theorem book_negative_qty_counterexample :
    alookup (applyUpdates (load_snapshot (OrderBook.init "X") ⟨1000, [], []⟩)
        [⟨1001, 1001, [(100, -1)], []⟩]).bids 100 = some (-1) ∧
    ¬ BookPos (applyUpdates (load_snapshot (OrderBook.init "X") ⟨1000, [], []⟩)
        [⟨1001, 1001, [(100, -1)], []⟩]).bids := by
  decide

/-- C5 (amended): after load_snapshot and any sequence of apply_update
    calls whose diffs carry only nonnegative quantities, no stored price
    key has quantity ≤ 0: a snapshot entry with quantity 0 is never
    inserted, and a diff quantity of 0 removes the key instead of storing
    zero.  (Amendment: the original claim admits arbitrary diffs, but the
    code upserts a negative diff quantity as is, see the counterexample.) -/
theorem book_positive_qty_invariant (ob0 : OrderBook) (d : SnapshotData)
    (us : List DepthUpdate)
    (h : ∀ u ∈ us, (∀ c ∈ u.bidChanges, 0 ≤ c.2) ∧ (∀ c ∈ u.askChanges, 0 ≤ c.2)) :
    BookPos (applyUpdates (load_snapshot ob0 d) us).bids ∧
    BookPos (applyUpdates (load_snapshot ob0 d) us).asks := by
  have hb : BookPos (load_snapshot ob0 d).bids := BookPos_foldSnap d.bids [] (by intro pq hpq; simp at hpq)
  have ha : BookPos (load_snapshot ob0 d).asks := BookPos_foldSnap d.asks [] (by intro pq hpq; simp at hpq)
  exact BookPos_applyUpdates h _ hb ha

theorem book_positive_qty_invariant_witness :
    BookPos (applyUpdates (load_snapshot (OrderBook.init "X")
        ⟨1000, [(99, 5), (100, 0)], [(101, 3)]⟩)
        [⟨1001, 1001, [(99, 0), (100, 2)], []⟩]).bids :=
  (book_positive_qty_invariant _ _ _ (by decide)).1

/- ## Binned ladder: pre-allocation -/

theorem alookup_append_none {β : Type} {m1 m2 : List (ℚ × β)} {k : ℚ}
    (h1 : alookup m1 k = none) (h2 : alookup m2 k = none) :
    alookup (m1 ++ m2) k = none := by
  rw [alookup_eq_none] at h1 h2 ⊢
  intro pq hpq
  rcases List.mem_append.mp hpq with h | h
  · exact h1 pq h
  · exact h2 pq h

theorem foldl_ainsert_fresh {β : Type} (key : ℕ → ℚ) (v : β) :
    ∀ (js : List ℕ) (b : List (ℚ × β)),
      (∀ j ∈ js, alookup b (key j) = none) → (js.map key).Nodup →
      js.foldl (fun b j => ainsert b (key j) v) b = b ++ js.map (fun j => (key j, v)) := by
  intro js
  induction js with
  | nil => intro b _ _; simp
  | cons j t ih =>
    intro b hfresh hnd
    have hj : alookup b (key j) = none := hfresh j (by simp)
    have hstep : ainsert b (key j) v = b ++ [(key j, v)] := ainsert_append_of_none v hj
    have hnd2 : (t.map key).Nodup := (List.nodup_cons.mp hnd).2
    have hkj : key j ∉ t.map key := (List.nodup_cons.mp hnd).1
    have hfresh2 : ∀ i ∈ t, alookup (b ++ [(key j, v)]) (key i) = none := by
      intro i hi
      apply alookup_append_none (hfresh i (by simp [hi]))
      have hne : (key j : ℚ) ≠ key i := by
        intro he
        exact hkj (he ▸ List.mem_map_of_mem key hi)
      simp [alookup, hne]
    calc (j :: t).foldl (fun b j => ainsert b (key j) v) b
        = t.foldl (fun b j => ainsert b (key j) v) (b ++ [(key j, v)]) := by
          rw [List.foldl_cons, hstep]
      _ = (b ++ [(key j, v)]) ++ t.map (fun i => (key i, v)) := ih _ hfresh2 hnd2
      _ = b ++ (j :: t).map (fun i => (key i, v)) := by simp

theorem allocKey_inj {center bin_size : ℚ} {levels : ℕ} (hbs : bin_size ≠ 0)
    {j1 j2 : ℕ} (h : allocKey center bin_size levels j1 = allocKey center bin_size levels j2) :
    j1 = j2 := by
  unfold allocKey at h
  have h2 := add_left_cancel h
  have h3 := mul_right_cancel₀ hbs h2
  have h4 : ((j1 : ℤ) - (levels : ℤ)) = ((j2 : ℤ) - (levels : ℤ)) := by exact_mod_cast h3
  omega

theorem allocKey_strictMono {center bin_size : ℚ} {levels : ℕ} (hbs : 0 < bin_size)
    {j1 j2 : ℕ} (h : j1 < j2) :
    allocKey center bin_size levels j1 < allocKey center bin_size levels j2 := by
  unfold allocKey
  have h2 : (((j1 : ℤ) - (levels : ℤ) : ℤ) : ℚ) < (((j2 : ℤ) - (levels : ℤ) : ℤ) : ℚ) := by
    have : ((j1 : ℤ) - (levels : ℤ)) < ((j2 : ℤ) - (levels : ℤ)) := by omega
    exact_mod_cast this
  exact add_lt_add_left (mul_lt_mul_of_pos_right h2 hbs) center

theorem allocKeys_nodup {center bin_size : ℚ} {levels : ℕ} (hbs : bin_size ≠ 0) (n : ℕ) :
    ((List.range n).map (allocKey center bin_size levels)).Nodup :=
  (List.nodup_range n).map_on (fun j1 _ j2 _ h => allocKey_inj hbs h)

theorem allocBins_eq {center bin_size : ℚ} {levels : ℕ} (hbs : bin_size ≠ 0) :
    allocBins center bin_size levels =
      (List.range (2 * levels + 1)).map
        (fun j => (allocKey center bin_size levels j, ((0 : ℚ), (0 : ℚ)))) := by
  unfold allocBins
  have := foldl_ainsert_fresh (allocKey center bin_size levels) ((0 : ℚ), (0 : ℚ))
    (List.range (2 * levels + 1)) []
    (fun j _ => rfl) (allocKeys_nodup hbs _)
  simpa using this

/- ## Binned ladder: aggregation -/

theorem aggStep_eq_map {isBid : Bool} {bs : ℚ} {b : List (ℚ × ℚ × ℚ)} (pq : ℚ × ℚ)
    (hnd : NodupKeys b) :
    aggStep isBid bs b pq =
      b.map (fun kv =>
        if kv.1 = priceToBin bs pq.1 then (kv.1, addPair isBid pq.2 kv.2) else kv) := by
  unfold aggStep
  cases h : alookup b (priceToBin bs pq.1) with
  | none =>
    have hne : ∀ kv ∈ b, kv.1 ≠ priceToBin bs pq.1 := (alookup_eq_none _ _).mp h
    exact (map_update_id _ hne).symm
  | some v =>
    show ainsert b (priceToBin bs pq.1) (if isBid then (v.1 + pq.2, v.2) else (v.1, v.2 + pq.2)) = _
    have he : (if isBid then (v.1 + pq.2, v.2) else (v.1, v.2 + pq.2))
        = addPair isBid pq.2 v := rfl
    rw [he]
    exact ainsert_eq_map_val (addPair isBid pq.2) hnd h

theorem keys_aggStep {isBid : Bool} {bs : ℚ} {b : List (ℚ × ℚ × ℚ)} (pq : ℚ × ℚ)
    (hnd : NodupKeys b) :
    (aggStep isBid bs b pq).map Prod.fst = b.map Prod.fst := by
  rw [aggStep_eq_map pq hnd, List.map_map]
  apply List.map_congr_left
  intro kv _
  by_cases h : kv.1 = priceToBin bs pq.1 <;> simp [h, Function.comp]

theorem nodup_aggStep {isBid : Bool} {bs : ℚ} {b : List (ℚ × ℚ × ℚ)} (pq : ℚ × ℚ)
    (hnd : NodupKeys b) : NodupKeys (aggStep isBid bs b pq) := by
  unfold NodupKeys
  rw [keys_aggStep pq hnd]
  exact hnd

theorem addPair_zero (isBid : Bool) (v : ℚ × ℚ) : addPair isBid 0 v = v := by
  cases isBid <;> simp [addPair]

theorem addPair_addPair (isBid : Bool) (q1 q2 : ℚ) (v : ℚ × ℚ) :
    addPair isBid q1 (addPair isBid q2 v) = addPair isBid (q2 + q1) v := by
  cases isBid <;> simp [addPair, add_assoc]

theorem sideBinSum_nil (bs c : ℚ) : sideBinSum bs [] c = 0 := rfl

theorem sideBinSum_cons (bs : ℚ) (pq : ℚ × ℚ) (m : List (ℚ × ℚ)) (c : ℚ) :
    sideBinSum bs (pq :: m) c
      = (if priceToBin bs pq.1 = c then pq.2 else 0) + sideBinSum bs m c := by
  unfold sideBinSum
  rw [List.filter_cons]
  by_cases h : priceToBin bs pq.1 = c <;> simp [h]

theorem aggSide_eq_map {isBid : Bool} {bs : ℚ} (m : List (ℚ × ℚ)) :
    ∀ b : List (ℚ × ℚ × ℚ), NodupKeys b →
      aggSide isBid bs b m
        = b.map (fun kv => (kv.1, addPair isBid (sideBinSum bs m kv.1) kv.2)) := by
  induction m with
  | nil =>
    intro b _
    have : (fun kv : ℚ × ℚ × ℚ => (kv.1, addPair isBid (sideBinSum bs [] kv.1) kv.2))
        = fun kv => kv := by
      funext kv
      simp [sideBinSum_nil, addPair_zero]
    simp [aggSide, this]
  | cons pq rest ih =>
    intro b hnd
    have hnd2 : NodupKeys (aggStep isBid bs b pq) := nodup_aggStep pq hnd
    have h1 : aggSide isBid bs b (pq :: rest) = aggSide isBid bs (aggStep isBid bs b pq) rest := by
      simp [aggSide, List.foldl_cons]
    rw [h1, ih _ hnd2, aggStep_eq_map pq hnd, List.map_map]
    apply List.map_congr_left
    intro kv _
    by_cases h : kv.1 = priceToBin bs pq.1
    · simp [Function.comp, h, sideBinSum_cons, addPair_addPair]
    · have h2 : ¬ priceToBin bs pq.1 = kv.1 := fun hh => h hh.symm
      simp [Function.comp, h, h2, sideBinSum_cons]

theorem nodupkeys_map_range {β : Type} (key : ℕ → ℚ) (vals : ℕ → β) (n : ℕ)
    (h : ((List.range n).map key).Nodup) :
    NodupKeys ((List.range n).map (fun j => (key j, vals j))) := by
  unfold NodupKeys
  rw [List.map_map]
  simpa [Function.comp] using h

theorem insSortInsert_desc_append {x : ℚ × ℚ × ℚ} {l : List (ℚ × ℚ × ℚ)}
    (h : ∀ y ∈ l, x.1 < y.1) :
    insSortInsert (fun a b => decide ((b : ℚ × ℚ × ℚ).1 ≤ a.1)) x l = l ++ [x] := by
  apply insSortInsert_of_false
  intro y hy
  rw [decide_eq_false_iff_not]
  exact not_le.mpr (h y hy)

theorem sortKeysDesc_of_ascending :
    ∀ {l : List (ℚ × ℚ × ℚ)}, List.Pairwise (fun a b => a.1 < b.1) l →
      sortKeysDesc l = l.reverse := by
  intro l
  induction l with
  | nil => intro _; rfl
  | cons x t ih =>
    intro h
    obtain ⟨hx, ht⟩ := List.pairwise_cons.mp h
    have hrec : sortKeysDesc t = t.reverse := ih ht
    have hstep : sortKeysDesc (x :: t)
        = insSortInsert (fun a b => decide ((b : ℚ × ℚ × ℚ).1 ≤ a.1)) x (sortKeysDesc t) := rfl
    rw [hstep, hrec,
      insSortInsert_desc_append (fun y hy => hx y (List.mem_reverse.mp hy)),
      List.reverse_cons]

/- ## Binned ladder: closed form -/

theorem get_binned_ladder_eq (ob : OrderBook) (bs : ℚ) (levels : ℕ)
    (hbs : 0 < bs) (hmid : mid_price ob ≠ 0) :
    get_binned_ladder ob bs levels =
      ((List.range (2 * levels + 1)).map (fun j =>
          BinnedLevel.mk (allocKey (priceToBin bs (mid_price ob)) bs levels j)
            (sideBinSum bs ob.bids (allocKey (priceToBin bs (mid_price ob)) bs levels j))
            (sideBinSum bs ob.asks (allocKey (priceToBin bs (mid_price ob)) bs levels j)))).reverse := by
  have hbs0 : bs ≠ 0 := ne_of_gt hbs
  set c := priceToBin bs (mid_price ob) with hc
  set n := 2 * levels + 1 with hn
  have hkeys := @allocKeys_nodup c bs levels hbs0 n
  have h0 : allocBins c bs levels
      = (List.range n).map (fun j => (allocKey c bs levels j, ((0 : ℚ), (0 : ℚ)))) :=
    allocBins_eq hbs0
  have hnd0 : NodupKeys ((List.range n).map (fun j => (allocKey c bs levels j, ((0 : ℚ), (0 : ℚ))))) :=
    nodupkeys_map_range _ _ n hkeys
  have step1 : aggSide true bs (allocBins c bs levels) ob.bids
      = (List.range n).map (fun j =>
          (allocKey c bs levels j, (sideBinSum bs ob.bids (allocKey c bs levels j), (0 : ℚ)))) := by
    rw [h0, aggSide_eq_map ob.bids _ hnd0, List.map_map]
    apply List.map_congr_left
    intro j _
    simp [Function.comp, addPair]
  have hnd1 : NodupKeys ((List.range n).map (fun j =>
      (allocKey c bs levels j, (sideBinSum bs ob.bids (allocKey c bs levels j), (0 : ℚ))))) :=
    nodupkeys_map_range _ _ n hkeys
  have step2 : aggSide false bs (aggSide true bs (allocBins c bs levels) ob.bids) ob.asks
      = (List.range n).map (fun j =>
          (allocKey c bs levels j,
            (sideBinSum bs ob.bids (allocKey c bs levels j),
              sideBinSum bs ob.asks (allocKey c bs levels j)))) := by
    rw [step1, aggSide_eq_map ob.asks _ hnd1, List.map_map]
    apply List.map_congr_left
    intro j _
    simp [Function.comp, addPair]
  have hasc : List.Pairwise (fun a b => (a : ℚ × ℚ × ℚ).1 < b.1)
      ((List.range n).map (fun j =>
        (allocKey c bs levels j,
          (sideBinSum bs ob.bids (allocKey c bs levels j),
            sideBinSum bs ob.asks (allocKey c bs levels j))))) := by
    rw [List.pairwise_map]
    exact (List.pairwise_lt_range n).imp (fun h => allocKey_strictMono hbs h)
  unfold get_binned_ladder
  rw [if_neg hmid, ← hc, step2, sortKeysDesc_of_ascending hasc, List.map_reverse, List.map_map]
  congr 1

/-- C7: with a positive bin size and nonzero mid price, get_binned_ladder
    returns exactly 2 * levels + 1 binned levels, ordered by strictly
    descending bin center, whose centers are
    floor(mid / bin_size) * bin_size + bin_size / 2 + i * bin_size for
    i from levels down to -levels; every level carries as bid (resp. ask)
    quantity the sum of all resting bid (resp. ask) quantities whose bin
    center equals that level's center, so prices mapping outside the
    allocated range contribute nowhere and are silently excluded. -/
theorem binned_ladder_shape (ob : OrderBook) (bs : ℚ) (levels : ℕ)
    (hbs : 0 < bs) (hmid : mid_price ob ≠ 0) :
    (get_binned_ladder ob bs levels).length = 2 * levels + 1 ∧
    (∀ j (hj : j < (get_binned_ladder ob bs levels).length),
      ((get_binned_ladder ob bs levels).get ⟨j, hj⟩).bin_price
        = priceToBin bs (mid_price ob) + ((((levels : ℤ) - (j : ℤ)) : ℤ) : ℚ) * bs) ∧
    List.Pairwise (fun a b => b.bin_price < a.bin_price) (get_binned_ladder ob bs levels) ∧
    (∀ j (hj : j < (get_binned_ladder ob bs levels).length),
      ((get_binned_ladder ob bs levels).get ⟨j, hj⟩).bid_qty
        = sideBinSum bs ob.bids (((get_binned_ladder ob bs levels).get ⟨j, hj⟩).bin_price) ∧
      ((get_binned_ladder ob bs levels).get ⟨j, hj⟩).ask_qty
        = sideBinSum bs ob.asks (((get_binned_ladder ob bs levels).get ⟨j, hj⟩).bin_price)) := by
  have hm := get_binned_ladder_eq ob bs levels hbs hmid
  set c := priceToBin bs (mid_price ob) with hc
  set f : ℕ → BinnedLevel := fun j =>
    ⟨allocKey c bs levels j, sideBinSum bs ob.bids (allocKey c bs levels j),
      sideBinSum bs ob.asks (allocKey c bs levels j)⟩ with hf
  have hm2 : get_binned_ladder ob bs levels = ((List.range (2 * levels + 1)).map f).reverse := hm
  have hlen : (get_binned_ladder ob bs levels).length = 2 * levels + 1 := by
    rw [hm2]
    simp
  have hget : ∀ j (hj : j < (get_binned_ladder ob bs levels).length),
      (get_binned_ladder ob bs levels).get ⟨j, hj⟩ = f (2 * levels - j) := by
    intro j hj
    rw [List.get_eq_getElem, List.getElem_of_eq hm2, List.getElem_reverse, List.getElem_map,
      List.getElem_range]
    congr 1
    simp only [List.length_map, List.length_range]
    omega
  refine ⟨hlen, ?_, ?_, ?_⟩
  · intro j hj
    have hj2 : j ≤ 2 * levels := by
      have := hlen ▸ hj
      omega
    rw [hget j hj]
    show allocKey c bs levels (2 * levels - j) = c + ((((levels : ℤ) - (j : ℤ)) : ℤ) : ℚ) * bs
    unfold allocKey
    congr 2
    have hcast : ((2 * levels - j : ℕ) : ℤ) - (levels : ℤ) = (levels : ℤ) - (j : ℤ) := by omega
    exact_mod_cast hcast
  · rw [hm2, List.pairwise_reverse, List.pairwise_map]
    exact (List.pairwise_lt_range _).imp (fun h => allocKey_strictMono hbs h)
  · intro j hj
    rw [hget j hj]
    exact ⟨rfl, rfl⟩

unseal Rat.mul Rat.add Rat.inv Rat.sub Rat.ofScientific in
theorem binned_ladder_shape_witness :
    (get_binned_ladder (⟨"X", [(99, 5)], [(101, 3)], 1000⟩ : OrderBook) 1 2).length
      = 2 * 2 + 1 :=
  (binned_ladder_shape (⟨"X", [(99, 5)], [(101, 3)], 1000⟩ : OrderBook) 1 2
    (by decide) (by decide)).1

/- ## Binned ladder: conservation -/

theorem sum_map_add {α : Type} (l : List α) (f g : α → ℚ) :
    (l.map (fun x => f x + g x)).sum = (l.map f).sum + (l.map g).sum := by
  induction l with
  | nil => simp
  | cons a t ih =>
    simp [ih]
    ring

theorem sum_map_ite_zero {l : List ℕ} (key : ℕ → ℚ) (c q : ℚ)
    (h : ∀ j ∈ l, c ≠ key j) :
    (l.map (fun j => if c = key j then q else 0)).sum = 0 := by
  apply List.sum_eq_zero
  intro x hx
  obtain ⟨j, hj, he⟩ := List.mem_map.mp hx
  rw [← he, if_neg (h j hj)]

theorem sum_map_ite_unique {l : List ℕ} (key : ℕ → ℚ) (c q : ℚ)
    (hnd : (l.map key).Nodup) (hc : ∃ j ∈ l, c = key j) :
    (l.map (fun j => if c = key j then q else 0)).sum = q := by
  induction l with
  | nil => simp at hc
  | cons a t ih =>
    obtain ⟨hna, hndt⟩ := List.nodup_cons.mp hnd
    by_cases h : c = key a
    · have hz : (t.map (fun j => if c = key j then q else 0)).sum = 0 := by
        apply sum_map_ite_zero
        intro j hj he
        exact hna ((h.symm.trans he) ▸ List.mem_map_of_mem key hj)
      rw [List.map_cons, List.sum_cons, if_pos h, hz, add_zero]
    · have hc2 : ∃ j ∈ t, c = key j := by
        obtain ⟨j, hj, he⟩ := hc
        rcases List.mem_cons.mp hj with rfl | hjt
        · exact absurd he h
        · exact ⟨j, hjt, he⟩
      simp [h, ih hndt hc2]

theorem sum_sideBinSum {bs : ℚ} (key : ℕ → ℚ) (n : ℕ)
    (hnd : ((List.range n).map key).Nodup) :
    ∀ m : List (ℚ × ℚ), (∀ pq ∈ m, ∃ j ∈ List.range n, priceToBin bs pq.1 = key j) →
      ((List.range n).map (fun j => sideBinSum bs m (key j))).sum = (m.map Prod.snd).sum := by
  intro m
  induction m with
  | nil => intro _; simp [sideBinSum_nil]
  | cons pq rest ih =>
    intro hm
    have h1 : ((List.range n).map (fun j => sideBinSum bs (pq :: rest) (key j)))
        = ((List.range n).map (fun j =>
            (if priceToBin bs pq.1 = key j then pq.2 else 0) + sideBinSum bs rest (key j))) := by
      apply List.map_congr_left
      intro j _
      exact sideBinSum_cons bs pq rest (key j)
    rw [h1, sum_map_add,
      sum_map_ite_unique key _ _ hnd (hm pq (by simp)),
      ih (fun x hx => hm x (by simp [hx]))]
    simp

/-- C4: with a positive bin size, whenever every resting bid (resp. ask)
    price maps into one of the allocated bins of get_binned_ladder, the sum
    of bid_qty (resp. ask_qty) over the returned levels equals the sum of
    the quantities of the raw bids (resp. asks) map: no quantity is lost or
    counted twice across bin boundaries. -/
theorem binned_ladder_conservation (ob : OrderBook) (bs : ℚ) (levels : ℕ)
    (hbs : 0 < bs)
    (hb : ∀ pq ∈ ob.bids,
      priceToBin bs pq.1 ∈ (get_binned_ladder ob bs levels).map BinnedLevel.bin_price)
    (ha : ∀ pq ∈ ob.asks,
      priceToBin bs pq.1 ∈ (get_binned_ladder ob bs levels).map BinnedLevel.bin_price) :
    ((get_binned_ladder ob bs levels).map BinnedLevel.bid_qty).sum
        = (ob.bids.map Prod.snd).sum ∧
    ((get_binned_ladder ob bs levels).map BinnedLevel.ask_qty).sum
        = (ob.asks.map Prod.snd).sum := by
  by_cases hmid : mid_price ob = 0
  · have hlad : get_binned_ladder ob bs levels = [] := by simp [get_binned_ladder, hmid]
    rw [hlad] at hb ha ⊢
    have hbnil : ob.bids = [] := by
      cases hbids : ob.bids with
      | nil => rfl
      | cons p t =>
        have := hb p (by rw [hbids]; simp)
        simp at this
    have hanil : ob.asks = [] := by
      cases hasks : ob.asks with
      | nil => rfl
      | cons p t =>
        have := ha p (by rw [hasks]; simp)
        simp at this
    simp [hbnil, hanil]
  · have hm := get_binned_ladder_eq ob bs levels hbs hmid
    set c := priceToBin bs (mid_price ob) with hc
    set n := 2 * levels + 1 with hn
    have hkeys := @allocKeys_nodup c bs levels (ne_of_gt hbs) n
    have hmemkeys : ∀ x : ℚ,
        x ∈ (get_binned_ladder ob bs levels).map BinnedLevel.bin_price →
        ∃ j ∈ List.range n, x = allocKey c bs levels j := by
      intro x hx
      rw [hm] at hx
      obtain ⟨lv, hlv, he⟩ := List.mem_map.mp hx
      obtain ⟨j, hj, he2⟩ := List.mem_map.mp (List.mem_reverse.mp hlv)
      refine ⟨j, hj, ?_⟩
      rw [← he, ← he2]
    constructor
    · rw [hm, List.map_reverse, List.map_map, List.sum_reverse]
      have hb2 : ∀ pq ∈ ob.bids, ∃ j ∈ List.range n,
          priceToBin bs pq.1 = allocKey c bs levels j := by
        intro pq hpq
        exact hmemkeys _ (hb pq hpq)
      exact sum_sideBinSum (allocKey c bs levels) n hkeys ob.bids hb2
    · rw [hm, List.map_reverse, List.map_map, List.sum_reverse]
      have ha2 : ∀ pq ∈ ob.asks, ∃ j ∈ List.range n,
          priceToBin bs pq.1 = allocKey c bs levels j := by
        intro pq hpq
        exact hmemkeys _ (ha pq hpq)
      exact sum_sideBinSum (allocKey c bs levels) n hkeys ob.asks ha2

unseal Rat.mul Rat.add Rat.inv Rat.sub Rat.ofScientific in
theorem binned_ladder_conservation_witness :
    ((get_binned_ladder (⟨"X", [(99, 5), (100, 7)], [(101, 3)], 1000⟩ : OrderBook) 1 2).map
        BinnedLevel.bid_qty).sum = (([((99 : ℚ), (5 : ℚ)), (100, 7)]).map Prod.snd).sum :=
  (binned_ladder_conservation (⟨"X", [(99, 5), (100, 7)], [(101, 3)], 1000⟩ : OrderBook) 1 2
    (by decide) (by decide) (by decide)).1

/- ## Flow engine: history sums -/

theorem binQtySum_cons (en : FlowEntry) (ts : List FlowEntry) (side : Bool) (bin : ℚ) :
    binQtySum (en :: ts) side bin
      = (if en.is_bid = side ∧ en.bin = bin then en.qty else 0) + binQtySum ts side bin := by
  unfold binQtySum
  rw [List.filter_cons]
  by_cases h1 : en.is_bid = side
  · by_cases h2 : en.bin = bin
    · simp [h1, h2]
    · simp [h1, h2]
  · simp [h1]

theorem binQtySum_append (ts : List FlowEntry) (en : FlowEntry) (side : Bool) (bin : ℚ) :
    binQtySum (ts ++ [en]) side bin
      = binQtySum ts side bin + (if en.is_bid = side ∧ en.bin = bin then en.qty else 0) := by
  unfold binQtySum
  rw [List.filter_append, List.map_append, List.sum_append]
  congr 1
  by_cases h1 : en.is_bid = side
  · by_cases h2 : en.bin = bin
    · simp [List.filter_cons, h1, h2]
    · simp [List.filter_cons, h1, h2]
  · simp [List.filter_cons, h1]

theorem binQtySum_nonneg {ts : List FlowEntry} (h : qtysOK ts) (side : Bool) (bin : ℚ) :
    0 ≤ binQtySum ts side bin := by
  apply List.sum_nonneg
  intro x hx
  obtain ⟨en, hen, he⟩ := List.mem_map.mp hx
  exact he ▸ h en (List.mem_filter.mp hen).1

theorem binQtySum_ne_zero_hasEntry {ts : List FlowEntry} {side : Bool} {bin : ℚ}
    (h : binQtySum ts side bin ≠ 0) : hasEntry ts side bin := by
  by_contra hne
  apply h
  unfold hasEntry at hne
  push_neg at hne
  unfold binQtySum
  have hfil : ts.filter (fun en => en.is_bid == side && decide (en.bin = bin)) = [] := by
    rw [List.filter_eq_nil]
    intro en hen
    have := hne en hen
    simpa using this
  rw [hfil]
  rfl

/- ## Flow engine: volume dict consistency -/

theorem volInv_addVol {side : Bool} {ts : List FlowEntry} {m : List (ℚ × ℚ)}
    (en : FlowEntry) (hen : en.is_bid = side) (hInv : volInv side ts m) :
    volInv side (ts ++ [en]) (addVol m en.bin en.qty) := by
  intro bin
  have h1 := (hInv bin).1
  constructor
  · unfold addVol alookupD
    rw [alookup_ainsert]
    by_cases hb : en.bin = bin
    · subst hb
      rw [if_pos rfl]
      rw [binQtySum_append]
      simp [hen]
      unfold alookupD at h1
      rw [h1]
    · rw [if_neg hb]
      rw [binQtySum_append]
      simp [hb]
      exact h1
  · intro hne
    by_cases hb : en.bin = bin
    · exact ⟨en, by simp, hen, hb⟩
    · unfold addVol at hne
      rw [alookup_ainsert, if_neg hb] at hne
      obtain ⟨x, hx, hx2⟩ := (hInv bin).2 hne
      exact ⟨x, by simp [hx], hx2⟩

theorem volInv_append_other {side : Bool} {ts : List FlowEntry} {m : List (ℚ × ℚ)}
    (en : FlowEntry) (hen : ¬ en.is_bid = side) (hInv : volInv side ts m) :
    volInv side (ts ++ [en]) m := by
  intro bin
  constructor
  · rw [binQtySum_append]
    simp [hen]
    exact (hInv bin).1
  · intro hne
    obtain ⟨x, hx, hx2⟩ := (hInv bin).2 hne
    exact ⟨x, by simp [hx], hx2⟩

theorem volInv_pop_other {side : Bool} {en : FlowEntry} {rest : List FlowEntry}
    {m : List (ℚ × ℚ)} (hen : ¬ en.is_bid = side)
    (hInv : volInv side (en :: rest) m) : volInv side rest m := by
  intro bin
  have h1 := (hInv bin).1
  rw [binQtySum_cons] at h1
  simp [hen] at h1
  refine ⟨h1, ?_⟩
  intro hne
  obtain ⟨x, hx, hx2, hx3⟩ := (hInv bin).2 hne
  rcases List.mem_cons.mp hx with rfl | hxr
  · exact absurd hx2 hen
  · exact ⟨x, hxr, hx2, hx3⟩

theorem volInv_subVol_pop {side : Bool} {en : FlowEntry} {rest : List FlowEntry}
    {m : List (ℚ × ℚ)} (hen : en.is_bid = side) (hq : qtysOK rest)
    (hInv : volInv side (en :: rest) m) :
    volInv side rest (subVol m en.bin en.qty) := by
  have hsum := (hInv en.bin).1
  have hcons : binQtySum (en :: rest) side en.bin = en.qty + binQtySum rest side en.bin := by
    rw [binQtySum_cons]
    simp [hen]
  have hnn : 0 ≤ binQtySum rest side en.bin := binQtySum_nonneg hq side en.bin
  have hv : max 0 (alookupD m en.bin 0 - en.qty) = binQtySum rest side en.bin := by
    rw [hsum, hcons, add_sub_cancel_left]
    exact max_eq_right hnn
  intro bin
  by_cases hb : bin = en.bin
  · subst hb
    unfold subVol
    by_cases hz : max 0 (alookupD m en.bin 0 - en.qty) = 0
    · rw [if_pos hz]
      constructor
      · unfold alookupD
        rw [alookup_aerase, if_pos rfl]
        show (0 : ℚ) = binQtySum rest side en.bin
        rw [← hv, hz]
      · intro hne
        rw [alookup_aerase, if_pos rfl] at hne
        exact absurd rfl hne
    · rw [if_neg hz]
      constructor
      · unfold alookupD
        rw [alookup_ainsert, if_pos rfl]
        show max 0 (alookupD m en.bin 0 - en.qty) = binQtySum rest side en.bin
        exact hv
      · intro _
        apply binQtySum_ne_zero_hasEntry
        rw [← hv]
        exact hz
  · have hb2 : ¬ en.bin = bin := fun hh => hb hh.symm
    have h1 := (hInv bin).1
    have hcons2 : binQtySum (en :: rest) side bin = binQtySum rest side bin := by
      rw [binQtySum_cons]
      simp [hb2]
    constructor
    · unfold subVol
      by_cases hz : max 0 (alookupD m en.bin 0 - en.qty) = 0
      · rw [if_pos hz]
        unfold alookupD
        rw [alookup_aerase, if_neg hb, ← hcons2]
        exact h1
      · rw [if_neg hz]
        unfold alookupD
        rw [alookup_ainsert, if_neg hb2, ← hcons2]
        exact h1
    · intro hne
      have hne2 : alookup m bin ≠ none := by
        unfold subVol at hne
        by_cases hz : max 0 (alookupD m en.bin 0 - en.qty) = 0
        · rw [if_pos hz, alookup_aerase, if_neg hb] at hne
          exact hne
        · rw [if_neg hz, alookup_ainsert, if_neg hb2] at hne
          exact hne
      obtain ⟨x, hx, hx2, hx3⟩ := (hInv bin).2 hne2
      rcases List.mem_cons.mp hx with rfl | hxr
      · exact absurd hx3 hb2
      · exact ⟨x, hxr, hx2, hx3⟩

/- ## Flow engine: invariant through the operations -/

theorem engineInv_init (bs ws : ℚ) : EngineInv (FlowEngine.init bs ws) := by
  refine ⟨?_, ?_, ?_, ?_⟩
  · intro en hen
    simp [FlowEngine.init] at hen
  · intro bin
    exact ⟨rfl, fun hne => absurd rfl hne⟩
  · intro bin
    exact ⟨rfl, fun hne => absurd rfl hne⟩
  · simp [FlowEngine.init]

theorem processTradeCore_inv {e : FlowEngine} {t : Trade} (hq : 0 ≤ t.qty)
    (hInv : EngineInv e) (hts : ∀ en ∈ e.trades, en.ts ≤ t.timestamp_ms) :
    EngineInv (processTradeCore e t) ∧
    (∀ en ∈ (processTradeCore e t).trades, en.ts ≤ t.timestamp_ms) := by
  obtain ⟨hqok, hbv, hav, hsort⟩ := hInv
  have htr : (processTradeCore e t).trades
      = e.trades ++ [⟨t.timestamp_ms, priceToBin e.bin_size t.price, t.qty, !t.is_buyer_maker⟩] :=
    rfl
  have hqok2 : qtysOK ((processTradeCore e t).trades) := by
    rw [htr]
    intro x hx
    rcases List.mem_append.mp hx with h | h
    · exact hqok x h
    · simp at h
      rw [h]
      exact hq
  have hsort2 : List.Pairwise (· ≤ ·) ((processTradeCore e t).trades.map FlowEntry.ts) := by
    rw [htr, List.map_append, List.pairwise_append]
    refine ⟨hsort, by simp, ?_⟩
    intro a ha b hb
    simp at hb
    obtain ⟨x, hx, he⟩ := List.mem_map.mp ha
    rw [hb, ← he]
    exact hts x hx
  refine ⟨⟨hqok2, ?_, ?_, hsort2⟩, ?_⟩
  · show volInv true (processTradeCore e t).trades (processTradeCore e t).bid_volume
    rw [htr]
    cases hbm : t.is_buyer_maker
    · have hb2 : (processTradeCore e t).bid_volume
          = addVol e.bid_volume (priceToBin e.bin_size t.price) t.qty := by
        simp [processTradeCore, hbm]
      rw [hb2]
      exact volInv_addVol ⟨t.timestamp_ms, priceToBin e.bin_size t.price, t.qty, true⟩
        rfl hbv
    · have hb2 : (processTradeCore e t).bid_volume = e.bid_volume := by
        simp [processTradeCore, hbm]
      rw [hb2]
      exact volInv_append_other
        ⟨t.timestamp_ms, priceToBin e.bin_size t.price, t.qty, false⟩
        (by simp) hbv
  · show volInv false (processTradeCore e t).trades (processTradeCore e t).ask_volume
    rw [htr]
    cases hbm : t.is_buyer_maker
    · have hb2 : (processTradeCore e t).ask_volume = e.ask_volume := by
        simp [processTradeCore, hbm]
      rw [hb2]
      exact volInv_append_other
        ⟨t.timestamp_ms, priceToBin e.bin_size t.price, t.qty, true⟩
        (by simp) hav
    · have hb2 : (processTradeCore e t).ask_volume
          = addVol e.ask_volume (priceToBin e.bin_size t.price) t.qty := by
        simp [processTradeCore, hbm]
      rw [hb2]
      exact volInv_addVol ⟨t.timestamp_ms, priceToBin e.bin_size t.price, t.qty, false⟩
        rfl hav
  · intro x hx
    rw [htr] at hx
    rcases List.mem_append.mp hx with h | h
    · exact hts x h
    · simp at h
      rw [h]

theorem cleanupLoop_inv (cutoff : ℤ) :
    ∀ (ts : List FlowEntry) (bv av : List (ℚ × ℚ)),
      qtysOK ts → volInv true ts bv → volInv false ts av →
      List.Pairwise (· ≤ ·) (ts.map FlowEntry.ts) →
      qtysOK (cleanupLoop cutoff ts bv av).1 ∧
      volInv true (cleanupLoop cutoff ts bv av).1 (cleanupLoop cutoff ts bv av).2.1 ∧
      volInv false (cleanupLoop cutoff ts bv av).1 (cleanupLoop cutoff ts bv av).2.2 ∧
      List.Pairwise (· ≤ ·) ((cleanupLoop cutoff ts bv av).1.map FlowEntry.ts) ∧
      (∀ en ∈ (cleanupLoop cutoff ts bv av).1, en ∈ ts) ∧
      (∀ en ∈ (cleanupLoop cutoff ts bv av).1, ¬ en.ts < cutoff) := by
  intro ts
  induction ts with
  | nil =>
    intro bv av h1 h2 h3 h4
    exact ⟨h1, h2, h3, h4, by simp [cleanupLoop], by simp [cleanupLoop]⟩
  | cons en rest ih =>
    intro bv av hq hbv hav hsort
    have hqt : qtysOK rest := fun x hx => hq x (by simp [hx])
    have hsortt : List.Pairwise (· ≤ ·) (rest.map FlowEntry.ts) := by
      rw [List.map_cons] at hsort
      exact (List.pairwise_cons.mp hsort).2
    by_cases hts : en.ts < cutoff
    · by_cases hbid : en.is_bid = true
      · have hred : cleanupLoop cutoff (en :: rest) bv av
            = cleanupLoop cutoff rest (subVol bv en.bin en.qty) av := by
          simp [cleanupLoop, hts, hbid]
        have hbv2 := volInv_subVol_pop hbid hqt hbv
        have hav2 := volInv_pop_other (by simp [hbid]) hav
        have h := ih (subVol bv en.bin en.qty) av hqt hbv2 hav2 hsortt
        rw [hred]
        exact ⟨h.1, h.2.1, h.2.2.1, h.2.2.2.1,
          fun x hx => by simp [h.2.2.2.2.1 x hx], h.2.2.2.2.2⟩
      · have hbid2 : en.is_bid = false := by simpa using hbid
        have hred : cleanupLoop cutoff (en :: rest) bv av
            = cleanupLoop cutoff rest bv (subVol av en.bin en.qty) := by
          simp [cleanupLoop, hts, hbid2]
        have hav2 := volInv_subVol_pop hbid2 hqt hav
        have hbv2 := volInv_pop_other (by simp [hbid2]) hbv
        have h := ih bv (subVol av en.bin en.qty) hqt hbv2 hav2 hsortt
        rw [hred]
        exact ⟨h.1, h.2.1, h.2.2.1, h.2.2.2.1,
          fun x hx => by simp [h.2.2.2.2.1 x hx], h.2.2.2.2.2⟩
    · have hred : cleanupLoop cutoff (en :: rest) bv av = (en :: rest, bv, av) := by
        simp [cleanupLoop, hts]
      rw [hred]
      refine ⟨hq, hbv, hav, hsort, fun x hx => hx, ?_⟩
      intro x hx hlt
      rcases List.mem_cons.mp hx with rfl | hxr
      · exact hts hlt
      · have hle : x.ts ∈ rest.map FlowEntry.ts := List.mem_map_of_mem FlowEntry.ts hxr
        rw [List.map_cons] at hsort
        have h2 := (List.pairwise_cons.mp hsort).1 x.ts hle
        exact hts (lt_of_le_of_lt h2 hlt)

theorem cleanup_expired_inv {e : FlowEngine} (now : ℤ) (hInv : EngineInv e) :
    EngineInv (cleanup_expired e now) ∧
    (∀ en ∈ (cleanup_expired e now).trades, en ∈ e.trades) := by
  obtain ⟨hq, hbv, hav, hsort⟩ := hInv
  have h := cleanupLoop_inv (now - pyInt (e.window_sec * 1000)) e.trades e.bid_volume
    e.ask_volume hq hbv hav hsort
  exact ⟨⟨h.1, h.2.1, h.2.2.1, h.2.2.2.1⟩, h.2.2.2.2.1⟩

theorem process_trade_inv {e : FlowEngine} {t : Trade} {c : Bool} (hq : 0 ≤ t.qty)
    (hInv : EngineInv e) (hts : ∀ en ∈ e.trades, en.ts ≤ t.timestamp_ms) :
    EngineInv (process_trade e t c) ∧
    (∀ en ∈ (process_trade e t c).trades, en.ts ≤ t.timestamp_ms) := by
  have hcore := processTradeCore_inv hq hInv hts
  cases c
  · simpa [process_trade] using hcore
  · have hcl := cleanup_expired_inv (e := processTradeCore e t) t.timestamp_ms hcore.1
    constructor
    · simpa [process_trade] using hcl.1
    · intro en hen
      have hen2 : en ∈ (cleanup_expired (processTradeCore e t) t.timestamp_ms).trades := by
        simpa [process_trade] using hen
      exact hcore.2 en (hcl.2 en hen2)

theorem process_trade_window (e : FlowEngine) (t : Trade) (c : Bool) :
    (process_trade e t c).window_sec = e.window_sec := by
  cases c <;> rfl

theorem runTrades_window : ∀ (tr : List (Trade × Bool)) (e : FlowEngine),
    (runTrades e tr).window_sec = e.window_sec := by
  intro tr
  induction tr with
  | nil => intro e; rfl
  | cons p rest ih =>
    intro e
    obtain ⟨t, c⟩ := p
    show (runTrades (process_trade e t c) rest).window_sec = e.window_sec
    rw [ih, process_trade_window]

theorem runTrades_inv : ∀ (tr : List (Trade × Bool)) (e : FlowEngine),
    EngineInv e →
    (∀ p ∈ tr, 0 ≤ p.1.qty) →
    List.Pairwise (· ≤ ·) (tr.map (fun p => p.1.timestamp_ms)) →
    (∀ en ∈ e.trades, ∀ p ∈ tr, en.ts ≤ p.1.timestamp_ms) →
    EngineInv (runTrades e tr) := by
  intro tr
  induction tr with
  | nil =>
    intro e h _ _ _
    exact h
  | cons p rest ih =>
    intro e hInv hq hsort hbound
    obtain ⟨t, c⟩ := p
    have hts : ∀ en ∈ e.trades, en.ts ≤ t.timestamp_ms :=
      fun en hen => hbound en hen (t, c) (by simp)
    have hpt := process_trade_inv (c := c) (hq (t, c) (by simp)) hInv hts
    have hsortt : List.Pairwise (· ≤ ·) (rest.map (fun p => p.1.timestamp_ms)) := by
      rw [List.map_cons] at hsort
      exact (List.pairwise_cons.mp hsort).2
    have hhead : ∀ p2 ∈ rest, t.timestamp_ms ≤ p2.1.timestamp_ms := by
      rw [List.map_cons] at hsort
      intro p2 hp2
      exact (List.pairwise_cons.mp hsort).1 p2.1.timestamp_ms
        (List.mem_map_of_mem (fun p => p.1.timestamp_ms) hp2)
    have hbound2 : ∀ en ∈ (process_trade e t c).trades, ∀ p2 ∈ rest,
        en.ts ≤ p2.1.timestamp_ms :=
      fun en hen p2 hp2 => le_trans (hpt.2 en hen) (hhead p2 hp2)
    have hq2 : ∀ p2 ∈ rest, 0 ≤ p2.1.qty := fun p2 hp2 => hq p2 (by simp [hp2])
    show EngineInv (runTrades (process_trade e t c) rest)
    exact ih (process_trade e t c) hpt.1 hq2 hsortt hbound2

unseal Rat.mul Rat.add Rat.inv Rat.sub Rat.ofScientific in
/-- C3 counterexample: a trade with negative quantity (processed in
    timestamp order) breaks the accumulated-volume-equals-window-sum
    invariant: the max(0, ...) clamp in cleanup erases the bin while a
    retained entry with quantity -3 still lies inside the window, so the
    accumulated bid volume (0) differs from the sum of retained entries
    (-3). -/
theorem flow_sum_counterexample :
    alookupD (runTrades (FlowEngine.init 1 60)
        [(⟨99.5, 5, false, 0⟩, false), (⟨99.5, -3, false, 1000⟩, false),
          (⟨200.2, 1, false, 61000⟩, true)]).bid_volume 99.5 0
      ≠ binQtySum (runTrades (FlowEngine.init 1 60)
        [(⟨99.5, 5, false, 0⟩, false), (⟨99.5, -3, false, 1000⟩, false),
          (⟨200.2, 1, false, 61000⟩, true)]).trades true 99.5 := by
  decide

/-- C3 (amended): for every sequence of trades with nonnegative quantities
    processed in non-decreasing timestamp order (each with an arbitrary
    wall-clock cleanup trigger), at every point the accumulated bid and ask
    volume of every bin equals the sum of the quantities of the retained
    history entries of that side and bin; and whenever every retained entry
    of a side and bin is older than the window cutoff, running
    _cleanup_expired removes that bin key entirely (absent, not stored as
    zero).  (Amendment: quantities are restricted to be nonnegative; the
    code's max(0, ...) clamp otherwise breaks the sum invariant, see the
    counterexample.) -/
theorem flow_window_conservation (bs ws : ℚ) (tr : List (Trade × Bool))
    (hq : ∀ p ∈ tr, 0 ≤ p.1.qty)
    (hsort : List.Pairwise (· ≤ ·) (tr.map (fun p => p.1.timestamp_ms))) :
    (∀ bin : ℚ,
      alookupD (runTrades (FlowEngine.init bs ws) tr).bid_volume bin 0
          = binQtySum (runTrades (FlowEngine.init bs ws) tr).trades true bin ∧
      alookupD (runTrades (FlowEngine.init bs ws) tr).ask_volume bin 0
          = binQtySum (runTrades (FlowEngine.init bs ws) tr).trades false bin) ∧
    (∀ (now : ℤ) (bin : ℚ),
      (∀ en ∈ (runTrades (FlowEngine.init bs ws) tr).trades,
          en.is_bid = true → en.bin = bin → en.ts < now - pyInt (ws * 1000)) →
      alookup (cleanup_expired (runTrades (FlowEngine.init bs ws) tr) now).bid_volume bin
        = none) ∧
    (∀ (now : ℤ) (bin : ℚ),
      (∀ en ∈ (runTrades (FlowEngine.init bs ws) tr).trades,
          en.is_bid = false → en.bin = bin → en.ts < now - pyInt (ws * 1000)) →
      alookup (cleanup_expired (runTrades (FlowEngine.init bs ws) tr) now).ask_volume bin
        = none) := by
  have hInv : EngineInv (runTrades (FlowEngine.init bs ws) tr) :=
    runTrades_inv tr _ (engineInv_init bs ws) hq hsort
      (by intro en hen; simp [FlowEngine.init] at hen)
  obtain ⟨hqok, hbv, hav, hsrt⟩ := hInv
  have hwin : (runTrades (FlowEngine.init bs ws) tr).window_sec = ws := by
    rw [runTrades_window]
    rfl
  refine ⟨?_, ?_, ?_⟩
  · intro bin
    exact ⟨(hbv bin).1, (hav bin).1⟩
  · intro now bin hexp
    have hcl := cleanupLoop_inv
      (now - pyInt ((runTrades (FlowEngine.init bs ws) tr).window_sec * 1000))
      (runTrades (FlowEngine.init bs ws) tr).trades
      (runTrades (FlowEngine.init bs ws) tr).bid_volume
      (runTrades (FlowEngine.init bs ws) tr).ask_volume hqok hbv hav hsrt
    show alookup (cleanupLoop
      (now - pyInt ((runTrades (FlowEngine.init bs ws) tr).window_sec * 1000))
      (runTrades (FlowEngine.init bs ws) tr).trades
      (runTrades (FlowEngine.init bs ws) tr).bid_volume
      (runTrades (FlowEngine.init bs ws) tr).ask_volume).2.1 bin = none
    by_contra hne
    obtain ⟨x, hx, hx2, hx3⟩ := (hcl.2.1 bin).2 hne
    have hxin := hcl.2.2.2.2.1 x hx
    have hlt : x.ts < now - pyInt (ws * 1000) := hexp x hxin hx2 hx3
    rw [← hwin] at hlt
    exact hcl.2.2.2.2.2 x hx hlt
  · intro now bin hexp
    have hcl := cleanupLoop_inv
      (now - pyInt ((runTrades (FlowEngine.init bs ws) tr).window_sec * 1000))
      (runTrades (FlowEngine.init bs ws) tr).trades
      (runTrades (FlowEngine.init bs ws) tr).bid_volume
      (runTrades (FlowEngine.init bs ws) tr).ask_volume hqok hbv hav hsrt
    show alookup (cleanupLoop
      (now - pyInt ((runTrades (FlowEngine.init bs ws) tr).window_sec * 1000))
      (runTrades (FlowEngine.init bs ws) tr).trades
      (runTrades (FlowEngine.init bs ws) tr).bid_volume
      (runTrades (FlowEngine.init bs ws) tr).ask_volume).2.2 bin = none
    by_contra hne
    obtain ⟨x, hx, hx2, hx3⟩ := (hcl.2.2.1 bin).2 hne
    have hxin := hcl.2.2.2.2.1 x hx
    have hlt : x.ts < now - pyInt (ws * 1000) := hexp x hxin hx2 hx3
    rw [← hwin] at hlt
    exact hcl.2.2.2.2.2 x hx hlt

unseal Rat.mul Rat.add Rat.inv Rat.sub Rat.ofScientific in
theorem flow_window_conservation_witness :
    alookup (cleanup_expired (runTrades (FlowEngine.init 1 60)
        [(⟨99.5, 5, false, 0⟩, false)]) 60100).bid_volume 99.5 = none :=
  (flow_window_conservation 1 60 [(⟨99.5, 5, false, 0⟩, false)]
      (by decide) (by decide)).2.1 60100 99.5 (by decide)

unseal Rat.mul Rat.add Rat.inv Rat.sub Rat.ofScientific in
/-- C6: the end-to-end scenario: after loading the snapshot with id 1000,
    bids [(99, 5)], asks [(101, 3)] and applying the diff 1001/1001 that
    removes 99.00 and adds 99.50 x 2, the book answers bestBid 99.5,
    bestAsk 101, midPrice 100.25; processing the trade (99.5, qty 1,
    buyer aggressor, t = 0) puts bid-traded volume 1 in the bin 99.5, and
    merge_with_book over the binned ladder (bin size 1, 25 levels) reports
    the row at 99.5 with resting bid 2 and deltaQty +1. -/
theorem end_to_end_scenario :
    (apply_update (load_snapshot (OrderBook.init "BNBUSDT") ⟨1000, [(99, 5)], [(101, 3)]⟩)
        ⟨1001, 1001, [(99, 0), (99.5, 2)], []⟩).1 = true ∧
    best_bid (apply_update (load_snapshot (OrderBook.init "BNBUSDT")
        ⟨1000, [(99, 5)], [(101, 3)]⟩) ⟨1001, 1001, [(99, 0), (99.5, 2)], []⟩).2 = 99.5 ∧
    best_ask (apply_update (load_snapshot (OrderBook.init "BNBUSDT")
        ⟨1000, [(99, 5)], [(101, 3)]⟩) ⟨1001, 1001, [(99, 0), (99.5, 2)], []⟩).2 = 101 ∧
    mid_price (apply_update (load_snapshot (OrderBook.init "BNBUSDT")
        ⟨1000, [(99, 5)], [(101, 3)]⟩) ⟨1001, 1001, [(99, 0), (99.5, 2)], []⟩).2 = 100.25 ∧
    get_flow_at_bin (process_trade (FlowEngine.init 1 60) ⟨99.5, 1, false, 0⟩ false) 99.5
      = (1, 0, 1) ∧
    (merge_with_book (process_trade (FlowEngine.init 1 60) ⟨99.5, 1, false, 0⟩ false)
        (get_binned_ladder (apply_update (load_snapshot (OrderBook.init "BNBUSDT")
          ⟨1000, [(99, 5)], [(101, 3)]⟩) ⟨1001, 1001, [(99, 0), (99.5, 2)], []⟩).2 1 25)).find?
        (fun fl => decide (fl.price = 99.5))
      = some ⟨99.5, 2, 0, 1, 0, 1⟩ := by
  decide
